import Mathlib

/-!
Shallow embedding of `app_v2.py` (HSD Lite Annotator), a single-session
Streamlit tool.  Python strings are modelled as `List Char`; the pandas
annotation table as a `List AnnotationRec` (rows in order); the Streamlit
session state as the structure `AppState`; the masks directory as an
association list from (cwd-relative) file paths to opaque pixel buffers.
`st.rerun` ends every handler, so each handler is a pure state transformer;
a Python exception (e.g. `KeyError` on a dict access) is modelled as `none`.
-/

/-- Python strings are modelled as lists of characters. -/
abbrev Str : Type := List Char

/-- Coercion from Lean string literals into the model's string type. -/
def str (s : String) : Str := s.toList

/-- Opaque pixel buffer: the contents of a drawn RGBA mask.  The app never
inspects buffer contents (it only converts and writes them verbatim), so they
are modelled by an abstract token. -/
abbrev Mask : Type := Nat

/-! ### String primitives used by the scanner

`filename.endswith('_raw.png')` and `filename.replace('_raw.png', '')`
from `scan_png_directory`, and Python's `sorted` on strings. -/

/-- The raw-layer suffix `_raw.png` from the scanner's naming convention. -/
def rawSuffix : Str := str "_raw.png"

/-- Does `s` start with the pattern `p`? (helper for Python `str.replace`). -/
def startsWithPat : Str → Str → Bool
  | [], _ => true
  | _ :: _, [] => false
  | p :: ps, c :: cs => p = c && startsWithPat ps cs

/-- Python `s.endswith('_raw.png')`: the last eight characters are the
raw-layer suffix. -/
def endsWithRaw (s : Str) : Bool :=
  decide (rawSuffix.length ≤ s.length) &&
    decide (s.drop (s.length - rawSuffix.length) = rawSuffix)

/-- Fuel-indexed core of Python `s.replace('_raw.png', '')`: scan left to
right; on a match skip the whole pattern and continue after it (occurrences
are non-overlapping), otherwise keep the character.  One unit of fuel is
spent per step; each step consumes at least one character, so any fuel at
least `s.length` computes the true result. -/
def removeOccAux : Str → Nat → Str
  | s, 0 => s
  | s, fuel + 1 =>
    if startsWithPat rawSuffix s then removeOccAux (s.drop rawSuffix.length) fuel
    else
      match s with
      | [] => []
      | c :: cs => c :: removeOccAux cs fuel

/-- Python `s.replace('_raw.png', '')`: remove every (non-overlapping,
leftmost-first) occurrence of the raw suffix — not only a final one. -/
def removeOcc (s : Str) : Str := removeOccAux s s.length

/-- The spec's reading of base-name extraction: the filename with its final
`_raw.png` suffix stripped and nothing else altered.  Stated from the
spec's words, to be compared with the code's `replace`-based `removeOcc`. -/
def stripRawSuffixSpec (s : Str) : Str := s.take (s.length - rawSuffix.length)

/-- Python comparison on a pair of characters (by code point). -/
def strLe : Str → Str → Bool
  | [], _ => true
  | _ :: _, [] => false
  | a :: as, b :: bs => if a = b then strLe as bs else decide (a < b)

/-- Insert into a lexicographically ascending list, keeping it ascending
(helper for Python `sorted`). -/
def insertSorted (a : Str) : List Str → List Str
  | [] => [a]
  | b :: bs => if strLe a b then a :: b :: bs else b :: insertSorted a bs

/-- Python `sorted` on a list of strings: the ascending rearrangement
(lexicographic by code point; such a rearrangement is unique because the
order is total and antisymmetric). -/
def sortStr : List Str → List Str
  | [] => []
  | a :: as => insertSorted a (sortStr as)

/-- Python `os.path.basename`: the part of a path after the last slash. -/
def basenameStr (p : Str) : Str := (p.reverse.takeWhile (fun c => c ≠ '/')).reverse

/-! ### Association lists

Python `dict` assignment (`tree[folder_name] = ...`) and file overwrite in
the masks directory both update in place when the key exists (keeping its
position) and append otherwise. -/

/-- Dict assignment `l[k] = v` on an insertion-ordered dictionary: replace the value at `k`
keeping its position if `k` is present, else append `(k, v)`. -/
def setAssoc {β : Type} (l : List (Str × β)) (k : Str) (v : β) : List (Str × β) :=
  if l.any (fun p => decide (p.1 = k)) then
    l.map (fun p => if p.1 = k then (k, v) else p)
  else l ++ [(k, v)]

/-- Dict access `l[k]` as a total query: the value at the first occurrence of `k`. -/
def lookupAssoc {β : Type} : List (Str × β) → Str → Option β
  | [], _ => none
  | p :: rest, k => if p.1 = k then some p.2 else lookupAssoc rest k

/-! ### Data model -/

/-- One row of the `st.session_state.annotations` dataframe
(columns `Folder, Base_Filename, Tag, Mask_Saved, Notes`). -/
structure AnnotationRec where
  Folder : Str
  Base_Filename : Str
  Tag : Str
  Mask_Saved : Str
  Notes : Str
deriving DecidableEq

/-- The `(Folder, Base_Filename)` key used by
`drop_duplicates(subset=['Folder', 'Base_Filename'])`. -/
def recKey (r : AnnotationRec) : Str × Str := (r.Folder, r.Base_Filename)

/-- One value of the `file_tree` dict: absolute folder path and the sorted
base names found in it. -/
structure FolderEntry where
  path : Str
  base_names : List Str
deriving DecidableEq

/-- The `st.session_state.file_tree` dict: an insertion-ordered dict from folder leaf
name to its entry. -/
abbrev FileTree : Type := List (Str × FolderEntry)

/-- The masks directory: cwd-relative file path to pixel buffer, one entry
per file currently present under `_masks`. -/
abbrev MasksFS : Type := List (Str × Mask)

/-- The Streamlit session state of the app. -/
structure AppState where
  scan_complete : Bool
  file_tree : FileTree
  current_folder : Option Str
  current_img_idx : Nat
  annotations : List AnnotationRec
deriving DecidableEq

/-! ### Annotation store (rows 72–80 of the source)

`pd.concat([annotations, new_data])` followed by
`drop_duplicates(subset=['Folder', 'Base_Filename'], keep='last')`. -/

/-- Pandas `drop_duplicates(..., keep='last')`: keep a row exactly when no later
row shares its key (the kept rows stay in their original relative order). -/
def dedupKeepLast : List AnnotationRec → List AnnotationRec
  | [] => []
  | r :: rest =>
    if rest.any (fun s => decide (recKey s = recKey r)) then dedupKeepLast rest
    else r :: dedupKeepLast rest

/-- The record-building part of `save_annotation_and_next`: append the new
row, then drop earlier rows with the same key. -/
def upsertRow (t : List AnnotationRec) (r : AnnotationRec) : List AnnotationRec :=
  dedupKeepLast (t ++ [r])

/-- The table produced by a sequence of upserts starting from the empty
dataframe. -/
def upsertAll (rs : List AnnotationRec) : List AnnotationRec :=
  rs.foldl upsertRow []

/-- The last row of the sequence `l` carrying key `k`, if any. -/
def lastFor (k : Str × Str) (l : List AnnotationRec) : Option AnnotationRec :=
  (l.filter (fun s => decide (recKey s = k))).getLast?

/-! ### Mask persistence (rows 59–70 of the source) -/

/-- The `MASKS_DIR` root, relative to the process working directory
(`os.path.join(os.getcwd(), "_masks")`; paths in `MasksFS` are kept
cwd-relative, so the cwd component is dropped once and for all). -/
def MASKS_DIR : Str := str "_masks"

/-- The deterministic mask path
`os.path.join(MASKS_DIR, folder, base_name + "_mask.png")`. -/
def maskPath (folder base : Str) : Str :=
  MASKS_DIR ++ str "/" ++ folder ++ str "/" ++ base ++ str "_mask.png"

/-- The mask-persistence step of `save_annotation_and_next`: if a buffer is
present, write it at the deterministic path (creating or overwriting that
one file) and report status `Yes`; otherwise touch nothing and report `No`.
The RGBA re-encoding (`Image.fromarray`) keeps the buffer contents, which
are opaque here. -/
def saveMaskStep (fs : MasksFS) (folder base : Str) (mask_data : Option Mask) :
    MasksFS × Str :=
  match mask_data with
  | none => (fs, str "No")
  | some m => (setAssoc fs (maskPath folder base) m, str "Yes")

/-! ### Save & Next (rows 57–94 of the source) -/

/-- Python `list.index` on the folder key list (total here; the callers
guard membership, where Python would raise `ValueError`). -/
def listIndexOf : List Str → Str → Nat
  | [], _ => 0
  | a :: rest, k => if a = k then 0 else listIndexOf rest k + 1

/-- The handler `save_annotation_and_next(folder, base_name, tag, notes, mask_data)`:
persist the mask, upsert the row, then advance the cursor.  Returns the new
masks directory, the new session state and whether the all-complete message
fired; `none` models the `KeyError` a missing `file_tree[folder]` would
raise.  The guard `current_img_idx < len(base_names) - 1` is over Python
ints, which is `idx + 1 < len` on naturals. -/
def save_annotation_and_next (fs : MasksFS) (s : AppState)
    (folder base_name tag notes : Str) (mask_data : Option Mask) :
    Option (MasksFS × AppState × Bool) :=
  let step := saveMaskStep fs folder base_name mask_data
  let anns := upsertRow s.annotations
    ⟨folder, base_name, tag, step.2, notes⟩
  match lookupAssoc s.file_tree folder with
  | none => none
  | some entry =>
    if s.current_img_idx + 1 < entry.base_names.length then
      some (step.1,
        { s with annotations := anns,
                 current_img_idx := s.current_img_idx + 1 }, false)
    else
      let folders := s.file_tree.map Prod.fst
      let current_folder_idx := listIndexOf folders folder
      if current_folder_idx + 1 < folders.length then
        some (step.1,
          { s with annotations := anns,
                   current_folder := some (folders.getD (current_folder_idx + 1) folder),
                   current_img_idx := 0 }, false)
      else
        some (step.1, { s with annotations := anns }, true)

/-! ### Dataset scanner (rows 33–55 of the source)

The filesystem input is the `os.walk` result: the directories under the
root in walk order, each with its file names, plus the `os.path.exists`
bit for the root. -/

/-- The two `st.error` reports of `scan_png_directory`. -/
inductive ScanError where
  | rootMissing
  | noValidSets
deriving DecidableEq

/-- One iteration of the tree-building loop of `scan_png_directory`: keep
the `_raw.png` files of the walked directory; if any, register the
directory under its leaf name with the sorted stripped base names (dict
assignment: a repeated leaf name overwrites the earlier entry). -/
def scanStep (tree : FileTree) (d : Str × List Str) : FileTree :=
  let raw_files := d.2.filter endsWithRaw
  if raw_files.isEmpty then tree
  else setAssoc tree (basenameStr d.1)
    ⟨d.1, sortStr (raw_files.map removeOcc)⟩

/-- The tree built by the `os.walk` loop of `scan_png_directory`. -/
def buildTree (walk : List (Str × List Str)) : FileTree :=
  walk.foldl scanStep []

/-- The walked directories the scanner registers: those holding at least
one `_raw.png` file. -/
def qualDirs (walk : List (Str × List Str)) : List (Str × List Str) :=
  walk.filter (fun d => !(d.2.filter endsWithRaw).isEmpty)

/-- The leaf names of the qualifying directories, in walk order. -/
def qualNames (walk : List (Str × List Str)) : List Str :=
  (qualDirs walk).map (fun d => basenameStr d.1)

/-- The handler `scan_png_directory(root_path)`: report an error and change nothing if
the root is missing or no valid sets are found; otherwise install the tree
and reset navigation to the first folder at index 0. -/
def scan_png_directory (s : AppState) (root_exists : Bool)
    (walk : List (Str × List Str)) : AppState × Option ScanError :=
  if root_exists then
    let tree := buildTree walk
    if tree.isEmpty then (s, some ScanError.noValidSets)
    else
      ({ s with file_tree := tree,
                current_folder := (tree.head?).map Prod.fst,
                current_img_idx := 0,
                scan_complete := true }, none)
  else (s, some ScanError.rootMissing)

/-! ### Export bundler (rows 96–114 of the source) -/

/-- Contents of one zip entry: either the serialized annotations workbook
(column headers plus a snapshot of the rows) or one mask file copied from
the masks directory. -/
inductive ZipData where
  | sheet (columns : List Str) (rows : List AnnotationRec)
  | file (m : Mask)
deriving DecidableEq

/-- The column headers `to_excel` writes for the annotations dataframe. -/
def sheetColumns : List Str :=
  [str "Folder", str "Base_Filename", str "Tag", str "Mask_Saved", str "Notes"]

/-- The fixed workbook entry name. -/
def xlsxEntryName : Str := str "hsd_annotations.xlsx"

/-- The bundler `create_export_zip()`: one archive holding the serialized snapshot of
the annotation table under `hsd_annotations.xlsx`, then every file under
the masks root in walk order; `os.path.relpath(file_path, os.getcwd())` is
the identity here because `MasksFS` paths are already cwd-relative. -/
def create_export_zip (annotations : List AnnotationRec) (masks : MasksFS) :
    List (Str × ZipData) :=
  (xlsxEntryName, ZipData.sheet sheetColumns annotations) ::
    masks.map (fun pm => (pm.1, ZipData.file pm.2))

/-! ### Remaining UI handlers (sidebar and workspace) -/

/-- The `Previous` button (rows 247–249): disabled at index 0, otherwise
steps the index back by one. -/
def previousStep (s : AppState) : AppState :=
  if s.current_img_idx = 0 then s
  else { s with current_img_idx := s.current_img_idx - 1 }

/-- Manual folder selection (rows 136–139): a change of folder resets the
index to 0; selecting the current folder is a no-op. -/
def folderChange (s : AppState) (selected : Str) : AppState :=
  if s.current_folder = some selected then s
  else { s with current_folder := some selected, current_img_idx := 0 }

/-! ### The navigation invariant (claim C7) -/

/-- Well-formedness of an installed tree: folder keys are distinct (it is a
dict) and every folder has at least one base name. -/
def TreeWF (t : FileTree) : Prop :=
  (t.map Prod.fst).Nodup ∧ ∀ p ∈ t, p.2.base_names ≠ []

/-- The cursor of the session: the current folder together with its tree
entry, when both resolve. -/
def navPos (s : AppState) : Option (Str × FolderEntry) :=
  s.current_folder.bind fun f =>
    (lookupAssoc s.file_tree f).map fun e => (f, e)

/-- Does `base_names[current_img_idx]` resolve for the current cursor?
This is exactly what rendering the workspace (row 166) requires. -/
def inBounds (s : AppState) : Bool :=
  match navPos s with
  | none => false
  | some fe => decide (s.current_img_idx < fe.2.base_names.length)

/-- The session invariant: once a scan has completed, the tree is
well-formed and the cursor indexes a real sample. -/
def NavInv (s : AppState) : Prop :=
  s.scan_complete = true → TreeWF s.file_tree ∧ inBounds s = true

instance (t : FileTree) : Decidable (TreeWF t) := by
  unfold TreeWF
  infer_instance

instance (s : AppState) : Decidable (NavInv s) := by
  unfold NavInv
  infer_instance

/-! ### Metadata prefill (rows 222–239 of the source) -/

/-- The classification choices offered by the selectbox. -/
def tag_options : List Str :=
  [str "Benign", str "Cancerous", str "Anomaly", str "Background",
   str "Discard", str "Keep"]

/-- The prefill query: the dataframe filtered on
`Folder == folder and Base_Filename == current_base`, taken at `iloc[0]`. -/
def lookupMatch (anns : List AnnotationRec) (folder base : Str) :
    Option AnnotationRec :=
  (anns.filter (fun r =>
    decide (r.Folder = folder) && decide (r.Base_Filename = base))).head?

/-- The prefill values `existing_tag` and `existing_notes`: empty strings when there is no match,
otherwise the matched row's fields. -/
def prefillTagNotes (anns : List AnnotationRec) (folder base : Str) : Str × Str :=
  match lookupMatch anns folder base with
  | none => (str "", str "")
  | some r => (r.Tag, r.Notes)

/-- The tag the selectbox shows: `tag_options.index(existing_tag)` when the
existing tag is an option, else index 0 (the first option). -/
def shownTag (existing : Str) : Str :=
  tag_options.getD
    (if tag_options.any (fun t => decide (t = existing)) then
      listIndexOf tag_options existing
    else 0)
    (str "")

/-! ### Concrete fixtures (used to instantiate theorems on closed inputs) -/

/-- A sample row for folder `A`, sample `s1`. -/
def exRow1 : AnnotationRec :=
  ⟨str "A", str "s1", str "Keep", str "Yes", str "ok"⟩

/-- A sample row for folder `A`, sample `s2`. -/
def exRow2 : AnnotationRec :=
  ⟨str "A", str "s2", str "Benign", str "No", str ""⟩

/-- A second save for folder `A`, sample `s1` (same key as `exRow1`). -/
def exRow3 : AnnotationRec :=
  ⟨str "A", str "s1", str "Discard", str "No", str "redo"⟩

/-- A folder entry with two samples. -/
def exEntryA : FolderEntry := ⟨str "/d/A", [str "s1", str "s2"]⟩

/-- A folder entry with one sample. -/
def exEntryB : FolderEntry := ⟨str "/d/B", [str "t1"]⟩

/-- A two-folder tree. -/
def exTree : FileTree := [(str "A", exEntryA), (str "B", exEntryB)]

/-- A browsing state at the first sample of folder `A`. -/
def exState : AppState := ⟨true, exTree, some (str "A"), 0, []⟩

/-- The terminal browsing state: last sample of the last folder. -/
def exStateEnd : AppState := ⟨true, exTree, some (str "B"), 0, []⟩

/-- A masks directory holding one file. -/
def exFS : MasksFS := [(maskPath (str "A") (str "s1"), 5)]

/-- A two-directory walk result with raw and non-raw files. -/
def exWalk : List (Str × List Str) :=
  [(str "/d/A", [str "s2_raw.png", str "s1_raw.png", str "s1_norm.png"]),
   (str "/d/B", [str "t1_raw.png", str "notes.txt"])]

/-- A walk result with no qualifying file at all. -/
def exWalkNoRaw : List (Str × List Str) :=
  [(str "/d/C", [str "readme.txt", str "x.png"])]

/-- A walk result with two distinct qualifying directories sharing the leaf
name `x`. -/
def exWalkClash : List (Str × List Str) :=
  [(str "/r/a/x", [str "s_raw.png"]), (str "/r/b/x", [str "t_raw.png"])]

/-- A walk result whose one qualifying file contains the raw suffix twice. -/
def exWalkOdd : List (Str × List Str) :=
  [(str "/d/D", [str "a_raw.png_raw.png"])]

/-! ## Theorems

### Store lemmas: append-then-dedup behaves as an upsert-by-key. -/

theorem anyKey_iff (l : List AnnotationRec) (k : Str × Str) :
    l.any (fun s => decide (recKey s = k)) = true ↔ ∃ s ∈ l, recKey s = k := by
  simp [List.any_eq_true]

theorem getLast?_cons_of_ne_nil {α : Type} (a : α) {l : List α} (h : l ≠ []) :
    (a :: l).getLast? = l.getLast? := by
  cases l with
  | nil => exact absurd rfl h
  | cons b t => exact List.getLast?_cons_cons

theorem mem_of_mem_dedupKeepLast {x : AnnotationRec} :
    ∀ {l : List AnnotationRec}, x ∈ dedupKeepLast l → x ∈ l := by
  intro l
  induction l with
  | nil => simp [dedupKeepLast]
  | cons r rest ih =>
    simp only [dedupKeepLast]
    by_cases h : rest.any (fun s => decide (recKey s = recKey r)) = true
    · rw [if_pos h]
      intro hx
      exact List.mem_cons_of_mem r (ih hx)
    · rw [if_neg h]
      intro hx
      rcases List.mem_cons.1 hx with hx | hx
      · exact hx ▸ List.mem_cons_self x rest
      · exact List.mem_cons_of_mem r (ih hx)

theorem filter_dedupKeepLast (k : Str × Str) (l : List AnnotationRec) :
    (dedupKeepLast l).filter (fun s => decide (recKey s = k)) =
      (lastFor k l).toList := by
  induction l with
  | nil => simp [dedupKeepLast, lastFor]
  | cons r rest ih =>
    simp only [dedupKeepLast]
    by_cases h : rest.any (fun s => decide (recKey s = recKey r)) = true
    · rw [if_pos h]
      by_cases hrk : recKey r = k
      · have hex : ∃ s ∈ rest, recKey s = k := by
          rcases (anyKey_iff rest (recKey r)).1 h with ⟨s, hs, he⟩
          exact ⟨s, hs, hrk ▸ he⟩
        have hne : rest.filter (fun s => decide (recKey s = k)) ≠ [] := by
          rcases hex with ⟨s, hs, he⟩
          intro hnil
          have : s ∈ rest.filter (fun s => decide (recKey s = k)) :=
            List.mem_filter.2 ⟨hs, by simp [he]⟩
          rw [hnil] at this
          exact List.not_mem_nil s this
        rw [ih]
        unfold lastFor
        rw [List.filter_cons_of_pos (by simp [hrk])]
        rw [getLast?_cons_of_ne_nil r hne]
      · rw [ih]
        unfold lastFor
        rw [List.filter_cons_of_neg (by simp [hrk])]
    · rw [if_neg h]
      by_cases hrk : recKey r = k
      · have hnone : ∀ s ∈ rest, ¬ (recKey s = k) := by
          intro s hs he
          exact h ((anyKey_iff rest (recKey r)).2 ⟨s, hs, hrk ▸ he⟩)
        have hfr : rest.filter (fun s => decide (recKey s = k)) = [] := by
          rw [List.filter_eq_nil_iff]
          intro s hs
          simp [hnone s hs]
        have hfd : (dedupKeepLast rest).filter (fun s => decide (recKey s = k)) = [] := by
          rw [List.filter_eq_nil_iff]
          intro s hs
          simp [hnone s (mem_of_mem_dedupKeepLast hs)]
        rw [List.filter_cons_of_pos (by simp [hrk]), hfd]
        unfold lastFor
        rw [List.filter_cons_of_pos (by simp [hrk]), hfr]
        simp [Option.toList]
      · rw [List.filter_cons_of_neg (by simp [hrk]), ih]
        unfold lastFor
        rw [List.filter_cons_of_neg (by simp [hrk])]

theorem mem_dedupKeepLast_iff {x : AnnotationRec} {l : List AnnotationRec} :
    x ∈ dedupKeepLast l ↔ lastFor (recKey x) l = some x := by
  have h1 : x ∈ dedupKeepLast l ↔
      x ∈ (dedupKeepLast l).filter (fun s => decide (recKey s = recKey x)) := by
    constructor
    · intro hx
      exact List.mem_filter.2 ⟨hx, by simp⟩
    · intro hx
      exact (List.mem_filter.1 hx).1
  rw [h1, filter_dedupKeepLast]
  cases hlf : lastFor (recKey x) l with
  | none => simp [Option.toList]
  | some y =>
    simp only [Option.toList, List.mem_singleton]
    constructor
    · intro hxy
      exact hxy ▸ rfl
    · intro hy
      exact (Option.some.injEq y x ▸ hy : y = x).symm ▸ rfl

theorem nodup_keys_dedupKeepLast (l : List AnnotationRec) :
    ((dedupKeepLast l).map recKey).Nodup := by
  induction l with
  | nil => simp [dedupKeepLast]
  | cons r rest ih =>
    simp only [dedupKeepLast]
    by_cases h : rest.any (fun s => decide (recKey s = recKey r)) = true
    · rw [if_pos h]; exact ih
    · rw [if_neg h]
      rw [List.map_cons]
      refine List.nodup_cons.2 ⟨?_, ih⟩
      intro hmem
      rcases List.mem_map.1 hmem with ⟨s, hs, he⟩
      exact h ((anyKey_iff rest (recKey r)).2
        ⟨s, mem_of_mem_dedupKeepLast hs, he.symm ▸ rfl⟩)

theorem dedupKeepLast_cons (r : AnnotationRec) (rest : List AnnotationRec) :
    dedupKeepLast (r :: rest) =
      if rest.any (fun s => decide (recKey s = recKey r)) then dedupKeepLast rest
      else r :: dedupKeepLast rest := rfl

theorem dedupKeepLast_append_dedupKeepLast (a b : List AnnotationRec) :
    dedupKeepLast (dedupKeepLast a ++ b) = dedupKeepLast (a ++ b) := by
  induction a generalizing b with
  | nil => simp [dedupKeepLast]
  | cons r rest ih =>
    rw [dedupKeepLast_cons r rest, List.cons_append, dedupKeepLast_cons r (rest ++ b)]
    by_cases h : rest.any (fun s => decide (recKey s = recKey r)) = true
    · rw [if_pos h]
      have hany : (rest ++ b).any (fun s => decide (recKey s = recKey r)) = true := by
        rw [List.any_append, h]; rfl
      rw [if_pos hany]
      exact ih b
    · rw [if_neg h]
      have hnr : ∀ s ∈ rest, ¬ (recKey s = recKey r) := by
        intro s hs he
        exact h ((anyKey_iff rest (recKey r)).2 ⟨s, hs, he⟩)
      have hsplit : ∀ c : List AnnotationRec,
          (∀ s ∈ c, s ∈ rest ∨ s ∈ b) →
          ((c ++ b).any (fun s => decide (recKey s = recKey r)) = true ↔
            b.any (fun s => decide (recKey s = recKey r)) = true) := by
        intro c hc
        rw [List.any_append]
        constructor
        · intro hor
          rcases Bool.or_eq_true_iff.1 hor with hcs | hbs
          · rcases (anyKey_iff c (recKey r)).1 hcs with ⟨s, hs, he⟩
            rcases hc s hs with hsr | hsb
            · exact absurd he (hnr s hsr)
            · exact (anyKey_iff b (recKey r)).2 ⟨s, hsb, he⟩
          · exact hbs
        · intro hb
          rw [hb]
          simp
      rw [List.cons_append, dedupKeepLast_cons r (dedupKeepLast rest ++ b)]
      by_cases hb : b.any (fun s => decide (recKey s = recKey r)) = true
      · have h1 : (dedupKeepLast rest ++ b).any (fun s => decide (recKey s = recKey r)) = true :=
          (hsplit (dedupKeepLast rest) (fun s hs => Or.inl (mem_of_mem_dedupKeepLast hs))).2 hb
        have h2 : (rest ++ b).any (fun s => decide (recKey s = recKey r)) = true :=
          (hsplit rest (fun s hs => Or.inl hs)).2 hb
        rw [if_pos h1, if_pos h2]
        exact ih b
      · have h1 : ¬ (dedupKeepLast rest ++ b).any (fun s => decide (recKey s = recKey r)) = true := by
          intro hh
          exact hb ((hsplit (dedupKeepLast rest) (fun s hs => Or.inl (mem_of_mem_dedupKeepLast hs))).1 hh)
        have h2 : ¬ (rest ++ b).any (fun s => decide (recKey s = recKey r)) = true := by
          intro hh
          exact hb ((hsplit rest (fun s hs => Or.inl hs)).1 hh)
        rw [if_neg h1, if_neg h2]
        rw [ih b]

theorem upsertAll_eq_dedupKeepLast (rs : List AnnotationRec) :
    upsertAll rs = dedupKeepLast rs := by
  have key : ∀ (rs acc : List AnnotationRec),
      List.foldl upsertRow (dedupKeepLast acc) rs = dedupKeepLast (acc ++ rs) := by
    intro rs
    induction rs with
    | nil => intro acc; simp
    | cons r rest ih =>
      intro acc
      rw [List.foldl_cons]
      have h1 : upsertRow (dedupKeepLast acc) r = dedupKeepLast (acc ++ [r]) := by
        unfold upsertRow
        exact dedupKeepLast_append_dedupKeepLast acc [r]
      rw [h1, ih (acc ++ [r])]
      simp
  have h0 : upsertAll rs = List.foldl upsertRow (dedupKeepLast []) rs := rfl
  rw [h0, key rs []]
  rfl

theorem upsertRow_eq_filter_append (t : List AnnotationRec) (r : AnnotationRec)
    (ht : (t.map recKey).Nodup) :
    upsertRow t r = t.filter (fun s => !(decide (recKey s = recKey r))) ++ [r] := by
  induction t with
  | nil => simp [upsertRow, dedupKeepLast]
  | cons s t' ih =>
    rw [List.map_cons, List.nodup_cons] at ht
    obtain ⟨hmem, hnodup⟩ := ht
    have hanyt' : t'.any (fun x => decide (recKey x = recKey s)) = false := by
      rw [Bool.eq_false_iff]
      intro hh
      rcases (anyKey_iff t' (recKey s)).1 hh with ⟨x, hx, he⟩
      exact hmem (List.mem_map.2 ⟨x, hx, he⟩)
    unfold upsertRow
    rw [List.cons_append, dedupKeepLast_cons s (t' ++ [r]), List.any_append, hanyt']
    by_cases he : recKey s = recKey r
    · have hcond : ((false || [r].any fun x => decide (recKey x = recKey s)) = true) := by
        simp [he.symm]
      rw [if_pos hcond]
      rw [List.filter_cons_of_neg (by simp [he])]
      exact ih hnodup
    · have hcond : ¬ ((false || [r].any fun x => decide (recKey x = recKey s)) = true) := by
        simp
        intro hh
        exact he hh.symm
      rw [if_neg hcond]
      rw [List.filter_cons_of_pos (by simp [he])]
      rw [List.cons_append]
      exact congrArg (s :: ·) (ih hnodup)

/-- C1: starting from the empty table, any sequence of upserts (the
record-building part of `save_annotation_and_next`) yields a table with
exactly one row per distinct `(Folder, Base_Filename)` key — namely the row
of the last upsert for that key — and a single upsert on a key-distinct
table only removes the old row for its own key, leaving the other rows in
their relative order, with the new row appended. -/
theorem c1_upsert_last_write_wins (rs : List AnnotationRec) (r : AnnotationRec)
    (t : List AnnotationRec) (ht : (t.map recKey).Nodup) :
    ((upsertAll rs).map recKey).Nodup
    ∧ (r ∈ upsertAll rs ↔ lastFor (recKey r) rs = some r)
    ∧ upsertRow t r =
        t.filter (fun s => !(decide (recKey s = recKey r))) ++ [r] := by
  refine ⟨?_, ?_, upsertRow_eq_filter_append t r ht⟩
  · rw [upsertAll_eq_dedupKeepLast]
    exact nodup_keys_dedupKeepLast rs
  · rw [upsertAll_eq_dedupKeepLast]
    exact mem_dedupKeepLast_iff

/-- Witness for C1 at a concrete three-upsert sequence with a repeated key. -/
theorem c1_upsert_last_write_wins_witness :
    ((upsertAll [exRow1, exRow2, exRow3]).map recKey).Nodup
    ∧ (exRow3 ∈ upsertAll [exRow1, exRow2, exRow3] ↔
        lastFor (recKey exRow3) [exRow1, exRow2, exRow3] = some exRow3)
    ∧ upsertRow [exRow1, exRow2] exRow3 =
        [exRow1, exRow2].filter (fun s => !(decide (recKey s = recKey exRow3)))
          ++ [exRow3] :=
  c1_upsert_last_write_wins [exRow1, exRow2, exRow3] exRow3 [exRow1, exRow2]
    (by decide)

/-! ### Lookup lemmas: the prefill query against an upserted table. -/

theorem lookupMatch_filter_eq (anns : List AnnotationRec) (f b : Str) :
    lookupMatch anns f b =
      (anns.filter (fun s => decide (recKey s = (f, b)))).head? := by
  unfold lookupMatch
  have : ∀ r : AnnotationRec,
      (decide (r.Folder = f) && decide (r.Base_Filename = b)) =
        decide (recKey r = (f, b)) := by
    intro r
    by_cases h1 : r.Folder = f
    · by_cases h2 : r.Base_Filename = b
      · simp [recKey, h1, h2]
      · simp [recKey, h1, h2]
    · simp [recKey, h1]
  rw [List.filter_congr (fun r _ => this r)]

theorem lookupMatch_upsertAll (rs : List AnnotationRec) (f b : Str) :
    lookupMatch (upsertAll rs) f b = lastFor (f, b) rs := by
  rw [lookupMatch_filter_eq, upsertAll_eq_dedupKeepLast, filter_dedupKeepLast]
  cases lastFor (f, b) rs with
  | none => rfl
  | some r => rfl

/-- C8: after an upsert for key `(f, b)` with no later upsert for that key,
the prefill query returns exactly that row's tag and notes; for a key never
upserted, the query reports no match and the view falls back to the first
tag option (`Benign`) and empty notes. -/
theorem c8_lookup_roundtrip (rs : List AnnotationRec) (f b : Str) :
    (∀ r : AnnotationRec, lastFor (f, b) rs = some r →
      lookupMatch (upsertAll rs) f b = some r ∧
      prefillTagNotes (upsertAll rs) f b = (r.Tag, r.Notes))
    ∧ ((∀ s ∈ rs, ¬ recKey s = (f, b)) →
      lookupMatch (upsertAll rs) f b = none ∧
      shownTag (prefillTagNotes (upsertAll rs) f b).1 = str "Benign" ∧
      (prefillTagNotes (upsertAll rs) f b).2 = str "") := by
  constructor
  · intro r hr
    have hl : lookupMatch (upsertAll rs) f b = some r := by
      rw [lookupMatch_upsertAll, hr]
    refine ⟨hl, ?_⟩
    unfold prefillTagNotes
    rw [hl]
  · intro hnone
    have hlf : lastFor (f, b) rs = none := by
      unfold lastFor
      have : rs.filter (fun s => decide (recKey s = (f, b))) = [] := by
        rw [List.filter_eq_nil_iff]
        intro s hs
        simp [hnone s hs]
      rw [this]
      rfl
    have hl : lookupMatch (upsertAll rs) f b = none := by
      rw [lookupMatch_upsertAll, hlf]
    refine ⟨hl, ?_, ?_⟩
    · unfold prefillTagNotes
      rw [hl]
      decide
    · unfold prefillTagNotes
      rw [hl]

/-- Witness for C8: the saved tag and notes of the latest upsert for
`(A, s1)` are returned by the prefill query, and an untouched key falls
back to the defaults. -/
theorem c8_lookup_roundtrip_witness :
    (lookupMatch (upsertAll [exRow1, exRow2, exRow3]) (str "A") (str "s1") =
        some exRow3 ∧
      prefillTagNotes (upsertAll [exRow1, exRow2, exRow3]) (str "A") (str "s1") =
        (exRow3.Tag, exRow3.Notes))
    ∧ (lookupMatch (upsertAll [exRow1, exRow2, exRow3]) (str "B") (str "zz") =
        none ∧
      shownTag (prefillTagNotes (upsertAll [exRow1, exRow2, exRow3])
          (str "B") (str "zz")).1 = str "Benign" ∧
      (prefillTagNotes (upsertAll [exRow1, exRow2, exRow3])
          (str "B") (str "zz")).2 = str "") :=
  ⟨(c8_lookup_roundtrip [exRow1, exRow2, exRow3] (str "A") (str "s1")).1 exRow3
      (by decide),
   (c8_lookup_roundtrip [exRow1, exRow2, exRow3] (str "B") (str "zz")).2
      (by decide)⟩
/-! ### File and dict write lemmas. -/

theorem lookupAssoc_nil {β : Type} (k : Str) :
    lookupAssoc ([] : List (Str × β)) k = none := rfl

theorem lookupAssoc_cons {β : Type} (p : Str × β) (rest : List (Str × β))
    (k : Str) :
    lookupAssoc (p :: rest) k =
      if p.1 = k then some p.2 else lookupAssoc rest k := rfl

theorem lookupAssoc_map_set_present {β : Type} (k : Str) (v : β) :
    ∀ l : List (Str × β), l.any (fun p => decide (p.1 = k)) = true →
      lookupAssoc (l.map (fun p => if p.1 = k then (k, v) else p)) k = some v := by
  intro l
  induction l with
  | nil =>
    intro h
    rw [List.any_nil] at h
    exact absurd h Bool.false_ne_true
  | cons p rest ih =>
    intro h
    by_cases hp : p.1 = k
    · rw [List.map_cons, if_pos hp, lookupAssoc_cons]
      rw [if_pos rfl]
    · rw [List.map_cons, if_neg hp, lookupAssoc_cons]
      rw [if_neg hp]
      apply ih
      rw [List.any_cons] at h
      rcases Bool.or_eq_true_iff.1 h with hh | hh
      · exact absurd (of_decide_eq_true hh) hp
      · exact hh

theorem lookupAssoc_map_set_other {β : Type} (k : Str) (v : β) (q : Str)
    (hq : q ≠ k) :
    ∀ l : List (Str × β),
      lookupAssoc (l.map (fun p => if p.1 = k then (k, v) else p)) q =
        lookupAssoc l q := by
  intro l
  induction l with
  | nil => rfl
  | cons p rest ih =>
    by_cases hp : p.1 = k
    · rw [List.map_cons, if_pos hp, lookupAssoc_cons, lookupAssoc_cons]
      rw [if_neg (fun he : (k, v).1 = q => hq he.symm),
        if_neg (fun he : p.1 = q => hq (he.symm.trans hp))]
      exact ih
    · rw [List.map_cons, if_neg hp, lookupAssoc_cons, lookupAssoc_cons]
      by_cases hpq : p.1 = q
      · rw [if_pos hpq, if_pos hpq]
      · rw [if_neg hpq, if_neg hpq]
        exact ih

theorem lookupAssoc_append_absent {β : Type} (k : Str) :
    ∀ (l m : List (Str × β)), l.any (fun p => decide (p.1 = k)) = false →
      lookupAssoc (l ++ m) k = lookupAssoc m k := by
  intro l
  induction l with
  | nil => intro m _; rfl
  | cons p rest ih =>
    intro m h
    rw [List.any_cons] at h
    rcases Bool.or_eq_false_iff.1 h with ⟨h1, h2⟩
    rw [List.cons_append, lookupAssoc_cons]
    rw [if_neg (of_decide_eq_false h1)]
    exact ih m h2

theorem lookupAssoc_append_right {β : Type} (q : Str) :
    ∀ (l m : List (Str × β)),
      lookupAssoc (l ++ m) q =
        match lookupAssoc l q with
        | some v => some v
        | none => lookupAssoc m q := by
  intro l
  induction l with
  | nil => intro m; rfl
  | cons p rest ih =>
    intro m
    rw [List.cons_append, lookupAssoc_cons, lookupAssoc_cons]
    by_cases hp : p.1 = q
    · rw [if_pos hp, if_pos hp]
    · rw [if_neg hp, if_neg hp]
      exact ih m

theorem lookupAssoc_setAssoc_self {β : Type} (l : List (Str × β)) (k : Str) (v : β) :
    lookupAssoc (setAssoc l k v) k = some v := by
  unfold setAssoc
  by_cases h : l.any (fun p => decide (p.1 = k)) = true
  · rw [if_pos h]
    exact lookupAssoc_map_set_present k v l h
  · rw [if_neg h]
    rw [lookupAssoc_append_absent k l [(k, v)] (Bool.eq_false_iff.2 h)]
    rw [lookupAssoc_cons]
    rw [if_pos rfl]

theorem lookupAssoc_setAssoc_other {β : Type} (l : List (Str × β)) (k : Str)
    (v : β) (q : Str) (hq : q ≠ k) :
    lookupAssoc (setAssoc l k v) q = lookupAssoc l q := by
  unfold setAssoc
  by_cases h : l.any (fun p => decide (p.1 = k)) = true
  · rw [if_pos h]
    exact lookupAssoc_map_set_other k v q hq l
  · rw [if_neg h]
    rw [lookupAssoc_append_right q l [(k, v)]]
    cases hl : lookupAssoc l q with
    | some v0 => rfl
    | none =>
      rw [lookupAssoc_cons]
      rw [if_neg (fun he : (k, v).1 = q => hq he.symm)]
      rfl

/-- C3: the mask-persistence step of `save_annotation_and_next` with an
absent buffer touches no file and records status `No`; with a present
buffer it creates or overwrites exactly the one file at
`{masks root}/{folder}/{base}_mask.png` (every other path is untouched) and
records status `Yes`. -/
theorem c3_mask_persistence (fs : MasksFS) (folder base : Str) :
    saveMaskStep fs folder base none = (fs, str "No")
    ∧ ∀ m : Mask,
        (saveMaskStep fs folder base (some m)).2 = str "Yes"
        ∧ lookupAssoc (saveMaskStep fs folder base (some m)).1
            (maskPath folder base) = some m
        ∧ ∀ p : Str, p ≠ maskPath folder base →
            lookupAssoc (saveMaskStep fs folder base (some m)).1 p =
              lookupAssoc fs p := by
  refine ⟨rfl, fun m => ⟨rfl, ?_, ?_⟩⟩
  · exact lookupAssoc_setAssoc_self fs (maskPath folder base) m
  · intro p hp
    exact lookupAssoc_setAssoc_other fs (maskPath folder base) m p hp

/-- Witness for C3 on a concrete masks directory: a skipped save, a real
save at the deterministic path, and an unrelated path left untouched. -/
theorem c3_mask_persistence_witness :
    saveMaskStep exFS (str "A") (str "s2") none = (exFS, str "No")
    ∧ (saveMaskStep exFS (str "A") (str "s2") (some 7)).2 = str "Yes"
    ∧ lookupAssoc (saveMaskStep exFS (str "A") (str "s2") (some 7)).1
        (maskPath (str "A") (str "s2")) = some 7
    ∧ lookupAssoc (saveMaskStep exFS (str "A") (str "s2") (some 7)).1
        (str "other.png") = lookupAssoc exFS (str "other.png") :=
  ⟨(c3_mask_persistence exFS (str "A") (str "s2")).1,
   ((c3_mask_persistence exFS (str "A") (str "s2")).2 7).1,
   ((c3_mask_persistence exFS (str "A") (str "s2")).2 7).2.1,
   ((c3_mask_persistence exFS (str "A") (str "s2")).2 7).2.2 (str "other.png")
     (by decide)⟩

/-! ### Navigation lemmas for Save & Next. -/

theorem save_annotation_and_next_eq (fs : MasksFS) (s : AppState)
    (folder base tag notes : Str) (mask : Option Mask) (entry : FolderEntry)
    (hlook : lookupAssoc s.file_tree folder = some entry) :
    save_annotation_and_next fs s folder base tag notes mask =
      (if s.current_img_idx + 1 < entry.base_names.length then
        some ((saveMaskStep fs folder base mask).1,
          { s with
              annotations := upsertRow s.annotations
                ⟨folder, base, tag, (saveMaskStep fs folder base mask).2, notes⟩,
              current_img_idx := s.current_img_idx + 1 }, false)
      else if listIndexOf (s.file_tree.map Prod.fst) folder + 1 <
          (s.file_tree.map Prod.fst).length then
        some ((saveMaskStep fs folder base mask).1,
          { s with
              annotations := upsertRow s.annotations
                ⟨folder, base, tag, (saveMaskStep fs folder base mask).2, notes⟩,
              current_folder := some ((s.file_tree.map Prod.fst).getD
                (listIndexOf (s.file_tree.map Prod.fst) folder + 1) folder),
              current_img_idx := 0 }, false)
      else
        some ((saveMaskStep fs folder base mask).1,
          { s with
              annotations := upsertRow s.annotations
                ⟨folder, base, tag, (saveMaskStep fs folder base mask).2, notes⟩ },
          true)) := by
  unfold save_annotation_and_next
  rw [hlook]

theorem save_terminal (fs : MasksFS) (s : AppState)
    (folder base tag notes : Str) (mask : Option Mask) (entry : FolderEntry)
    (hlook : lookupAssoc s.file_tree folder = some entry)
    (h1 : ¬ s.current_img_idx + 1 < entry.base_names.length)
    (h2 : ¬ listIndexOf (s.file_tree.map Prod.fst) folder + 1 <
        (s.file_tree.map Prod.fst).length) :
    ∃ fs1 s1,
      save_annotation_and_next fs s folder base tag notes mask =
        some (fs1, s1, true) ∧
      s1.current_folder = s.current_folder ∧
      s1.current_img_idx = s.current_img_idx := by
  rw [save_annotation_and_next_eq fs s folder base tag notes mask entry hlook,
    if_neg h1, if_neg h2]
  exact ⟨_, _, rfl, rfl, rfl⟩

/-- C2: from a browsing state, Save & Next advances the index by 1 when more
samples remain in the current folder; otherwise it moves to the next folder
in tree order at index 0; at the last sample of the last folder it leaves
folder and index unchanged and fires the all-complete signal, and a repeated
Save & Next in that terminal position again returns normally (no exception)
with folder and index unchanged. -/
theorem c2_save_next_navigation (fs : MasksFS) (s : AppState)
    (folder base tag notes : Str) (mask : Option Mask) (entry : FolderEntry)
    (hf : s.current_folder = some folder)
    (hlook : lookupAssoc s.file_tree folder = some entry) :
    ∃ fs1 s1 sig,
      save_annotation_and_next fs s folder base tag notes mask =
        some (fs1, s1, sig)
      ∧ (s.current_img_idx + 1 < entry.base_names.length →
          s1.current_folder = some folder ∧
          s1.current_img_idx = s.current_img_idx + 1 ∧ sig = false)
      ∧ (¬ s.current_img_idx + 1 < entry.base_names.length →
          (listIndexOf (s.file_tree.map Prod.fst) folder + 1 <
              (s.file_tree.map Prod.fst).length →
            s1.current_folder = some ((s.file_tree.map Prod.fst).getD
              (listIndexOf (s.file_tree.map Prod.fst) folder + 1) folder) ∧
            s1.current_img_idx = 0 ∧ sig = false)
          ∧ (¬ listIndexOf (s.file_tree.map Prod.fst) folder + 1 <
              (s.file_tree.map Prod.fst).length →
            s1.current_folder = s.current_folder ∧
            s1.current_img_idx = s.current_img_idx ∧ sig = true ∧
            ∀ (fs2 : MasksFS) (base2 tag2 notes2 : Str) (mask2 : Option Mask),
              ∃ fs3 s3,
                save_annotation_and_next fs2 s1 folder base2 tag2 notes2 mask2 =
                  some (fs3, s3, true) ∧
                s3.current_folder = s.current_folder ∧
                s3.current_img_idx = s.current_img_idx)) := by
  rw [save_annotation_and_next_eq fs s folder base tag notes mask entry hlook]
  by_cases h1 : s.current_img_idx + 1 < entry.base_names.length
  · rw [if_pos h1]
    refine ⟨_, _, _, rfl, fun _ => ⟨hf, rfl, rfl⟩, fun hcon => absurd h1 hcon⟩
  · rw [if_neg h1]
    by_cases h2 : listIndexOf (s.file_tree.map Prod.fst) folder + 1 <
        (s.file_tree.map Prod.fst).length
    · rw [if_pos h2]
      refine ⟨_, _, _, rfl, fun hcon => absurd hcon h1,
        fun _ => ⟨fun _ => ⟨rfl, rfl, rfl⟩, fun hcon => absurd h2 hcon⟩⟩
    · rw [if_neg h2]
      refine ⟨_, _, _, rfl, fun hcon => absurd hcon h1,
        fun _ => ⟨fun hcon => absurd hcon h2, fun _ => ⟨rfl, rfl, rfl, ?_⟩⟩⟩
      intro fs2 base2 tag2 notes2 mask2
      exact save_terminal fs2 _ folder base2 tag2 notes2 mask2 entry hlook h1 h2

/-- Witness for C2 at a concrete browsing state: folder `A` at index 0 of
two samples, where Save & Next advances the index. -/
theorem c2_save_next_navigation_witness :
    ∃ fs1 s1 sig,
      save_annotation_and_next exFS exState (str "A") (str "s1") (str "Keep")
          (str "ok") none = some (fs1, s1, sig)
      ∧ (exState.current_img_idx + 1 < exEntryA.base_names.length →
          s1.current_folder = some (str "A") ∧
          s1.current_img_idx = exState.current_img_idx + 1 ∧ sig = false)
      ∧ (¬ exState.current_img_idx + 1 < exEntryA.base_names.length →
          (listIndexOf (exState.file_tree.map Prod.fst) (str "A") + 1 <
              (exState.file_tree.map Prod.fst).length →
            s1.current_folder = some ((exState.file_tree.map Prod.fst).getD
              (listIndexOf (exState.file_tree.map Prod.fst) (str "A") + 1)
              (str "A")) ∧
            s1.current_img_idx = 0 ∧ sig = false)
          ∧ (¬ listIndexOf (exState.file_tree.map Prod.fst) (str "A") + 1 <
              (exState.file_tree.map Prod.fst).length →
            s1.current_folder = exState.current_folder ∧
            s1.current_img_idx = exState.current_img_idx ∧ sig = true ∧
            ∀ (fs2 : MasksFS) (base2 tag2 notes2 : Str) (mask2 : Option Mask),
              ∃ fs3 s3,
                save_annotation_and_next fs2 s1 (str "A") base2 tag2 notes2
                    mask2 = some (fs3, s3, true) ∧
                s3.current_folder = exState.current_folder ∧
                s3.current_img_idx = exState.current_img_idx)) :=
  c2_save_next_navigation exFS exState (str "A") (str "s1") (str "Keep")
    (str "ok") none exEntryA (by decide) (by decide)

/-! ### Scanner lemmas. -/

theorem buildTree_no_raw (walk : List (Str × List Str))
    (h : ∀ d ∈ walk, ∀ f ∈ d.2, endsWithRaw f = false) :
    buildTree walk = [] := by
  have key : ∀ (w : List (Str × List Str)) (acc : FileTree),
      (∀ d ∈ w, ∀ f ∈ d.2, endsWithRaw f = false) →
      List.foldl scanStep acc w = acc := by
    intro w
    induction w with
    | nil => intro acc _; rfl
    | cons d rest ih =>
      intro acc hw
      rw [List.foldl_cons]
      have hfil : d.2.filter endsWithRaw = [] := by
        rw [List.filter_eq_nil_iff]
        intro f hf
        rw [hw d (List.mem_cons_self d rest) f hf]
        exact Bool.false_ne_true
      simp only [scanStep, hfil, List.isEmpty_nil, if_pos]
      exact ih acc (fun d2 hd2 => hw d2 (List.mem_cons_of_mem d hd2))
  exact key walk [] h

/-- C4: a scan whose root is missing, or that finds no file ending in
`_raw.png` anywhere, reports an error and leaves the whole session state
(tree, current folder, index, scan flag, annotations) exactly as it was. -/
theorem c4_scan_failure_keeps_state (s : AppState)
    (walk : List (Str × List Str)) :
    scan_png_directory s false walk = (s, some ScanError.rootMissing)
    ∧ ((∀ d ∈ walk, ∀ f ∈ d.2, endsWithRaw f = false) →
        scan_png_directory s true walk = (s, some ScanError.noValidSets)) := by
  constructor
  · rfl
  · intro h
    unfold scan_png_directory
    rw [if_pos rfl]
    simp only [buildTree_no_raw walk h, List.isEmpty_nil, if_pos]

/-- Witness for C4: a missing root, and a concrete walk with no qualifying
file, both leave the state untouched and report the corresponding error. -/
theorem c4_scan_failure_keeps_state_witness :
    scan_png_directory exState false exWalkNoRaw =
      (exState, some ScanError.rootMissing)
    ∧ scan_png_directory exState true exWalkNoRaw =
      (exState, some ScanError.noValidSets) :=
  ⟨(c4_scan_failure_keeps_state exState exWalkNoRaw).1,
   (c4_scan_failure_keeps_state exState exWalkNoRaw).2 (by decide)⟩

/-! ### Export lemmas. -/

/-- C6: the export archive always holds exactly one workbook entry, named
`hsd_annotations.xlsx`, carrying the column headers and a snapshot of the
whole table at call time (header-only when the table is empty), followed by
exactly the files currently present under the masks root with their
cwd-relative paths. -/
theorem c6_export_archive_contents (anns : List AnnotationRec) (masks : MasksFS) :
    (create_export_zip anns masks).head? =
      some (xlsxEntryName, ZipData.sheet sheetColumns anns)
    ∧ (create_export_zip anns masks).countP
        (fun e => match e.2 with
          | ZipData.sheet _ _ => true
          | ZipData.file _ => false) = 1
    ∧ (create_export_zip anns masks).tail =
        masks.map (fun pm => (pm.1, ZipData.file pm.2))
    ∧ ∀ (p : Str) (m : Mask),
        ((p, ZipData.file m) ∈ create_export_zip anns masks ↔ (p, m) ∈ masks) := by
  refine ⟨rfl, ?_, rfl, ?_⟩
  · unfold create_export_zip
    rw [List.countP_cons]
    have h0 : (masks.map (fun pm => (pm.1, ZipData.file pm.2))).countP
        (fun e => match e.2 with
          | ZipData.sheet _ _ => true
          | ZipData.file _ => false) = 0 := by
      rw [List.countP_eq_zero]
      intro e he
      rcases List.mem_map.1 he with ⟨pm, _, hpm⟩
      rw [← hpm]
      exact Bool.false_ne_true
    rw [h0]
    rfl
  · intro p m
    unfold create_export_zip
    rw [List.mem_cons]
    constructor
    · intro h
      rcases h with h | h
      · exact absurd (congrArg Prod.snd h) (fun hc => ZipData.noConfusion hc)
      · rcases List.mem_map.1 h with ⟨pm, hpm, he⟩
        have h1 : pm.1 = p := congrArg Prod.fst he
        have h2 : pm.2 = m := by
          have := congrArg Prod.snd he
          exact ZipData.file.inj this
        have : pm = (p, m) := Prod.ext h1 h2
        exact this ▸ hpm
    · intro h
      exact Or.inr (List.mem_map.2 ⟨(p, m), h, rfl⟩)

/-- C10: the export is a pure function of the table and the masks
directory: with the same table, two runs serialize identical annotation
content whatever happened to the masks in between, and if the masks
directory is also unchanged the two archives are identical — nothing is
cached across calls. -/
theorem c10_export_deterministic (anns : List AnnotationRec) (m1 m2 : MasksFS) :
    (create_export_zip anns m1).head? = (create_export_zip anns m2).head?
    ∧ (m1 = m2 → create_export_zip anns m1 = create_export_zip anns m2) := by
  exact ⟨rfl, fun h => h ▸ rfl⟩

/-- Witness for C10 on a concrete table: annotation content agrees across
different masks directories, and equal directories give equal archives. -/
theorem c10_export_deterministic_witness :
    (create_export_zip [exRow1] exFS).head? =
      (create_export_zip [exRow1] []).head?
    ∧ create_export_zip [exRow1] exFS = create_export_zip [exRow1] exFS :=
  ⟨(c10_export_deterministic [exRow1] exFS []).1,
   (c10_export_deterministic [exRow1] exFS exFS).2 rfl⟩

/-! ### Sorting lemmas: `sortStr` is the ascending rearrangement. -/

theorem strLe_total (a b : Str) : strLe a b = true ∨ strLe b a = true := by
  induction a generalizing b with
  | nil => exact Or.inl rfl
  | cons x xs ih =>
    cases b with
    | nil => exact Or.inr rfl
    | cons y ys =>
      by_cases hxy : x = y
      · subst hxy
        rcases ih ys with h | h
        · exact Or.inl (by unfold strLe; rw [if_pos rfl]; exact h)
        · exact Or.inr (by unfold strLe; rw [if_pos rfl]; exact h)
      · rcases lt_or_gt_of_ne hxy with hlt | hgt
        · refine Or.inl ?_
          unfold strLe
          rw [if_neg hxy]
          exact decide_eq_true hlt
        · refine Or.inr ?_
          unfold strLe
          rw [if_neg (fun he => hxy he.symm)]
          exact decide_eq_true hgt

theorem strLe_trans {a b c : Str} (h1 : strLe a b = true)
    (h2 : strLe b c = true) : strLe a c = true := by
  induction a generalizing b c with
  | nil => rfl
  | cons x xs ih =>
    cases b with
    | nil => exact absurd h1 (by unfold strLe; exact Bool.false_ne_true)
    | cons y ys =>
      cases c with
      | nil => exact absurd h2 (by unfold strLe; exact Bool.false_ne_true)
      | cons z zs =>
        unfold strLe at h1 h2 ⊢
        by_cases hxy : x = y
        · rw [if_pos hxy] at h1
          by_cases hyz : y = z
          · rw [if_pos hyz] at h2
            rw [if_pos (hxy.trans hyz)]
            exact ih h1 h2
          · rw [if_neg hyz] at h2
            rw [if_neg (fun he => hyz ((hxy.symm.trans he)))]
            exact decide_eq_true (hxy ▸ of_decide_eq_true h2)
        · rw [if_neg hxy] at h1
          have hlt1 : x < y := of_decide_eq_true h1
          by_cases hyz : y = z
          · rw [if_pos hyz] at h2
            rw [if_neg (fun he => hxy (he.trans hyz.symm))]
            exact decide_eq_true (hyz ▸ hlt1)
          · rw [if_neg hyz] at h2
            have hlt2 : y < z := of_decide_eq_true h2
            have hxz : x < z := lt_trans hlt1 hlt2
            rw [if_neg (fun he : x = z => absurd (he ▸ hxz) (lt_irrefl z))]
            exact decide_eq_true hxz

theorem perm_insertSorted (a : Str) (l : List Str) :
    (insertSorted a l).Perm (a :: l) := by
  induction l with
  | nil => exact List.Perm.refl _
  | cons b bs ih =>
    unfold insertSorted
    by_cases h : strLe a b = true
    · rw [if_pos h]
    · rw [if_neg h]
      exact (ih.cons b).trans (List.Perm.swap a b bs)

theorem sorted_insertSorted (a : Str) (l : List Str)
    (hl : List.Pairwise (fun x y => strLe x y = true) l) :
    List.Pairwise (fun x y => strLe x y = true) (insertSorted a l) := by
  induction l with
  | nil => exact List.pairwise_singleton _ a
  | cons b bs ih =>
    rw [List.pairwise_cons] at hl
    obtain ⟨hb, hbs⟩ := hl
    unfold insertSorted
    by_cases h : strLe a b = true
    · rw [if_pos h]
      rw [List.pairwise_cons]
      refine ⟨?_, List.pairwise_cons.2 ⟨hb, hbs⟩⟩
      intro x hx
      rcases List.mem_cons.1 hx with hx | hx
      · exact hx ▸ h
      · exact strLe_trans h (hb x hx)
    · rw [if_neg h]
      have hba : strLe b a = true := by
        rcases strLe_total a b with hab | hba
        · exact absurd hab h
        · exact hba
      rw [List.pairwise_cons]
      refine ⟨?_, ih hbs⟩
      intro x hx
      have hx2 : x ∈ a :: bs := (perm_insertSorted a bs).mem_iff.1 hx
      rcases List.mem_cons.1 hx2 with hx2 | hx2
      · exact hx2 ▸ hba
      · exact hb x hx2

theorem perm_sortStr (l : List Str) : (sortStr l).Perm l := by
  induction l with
  | nil => exact List.Perm.refl _
  | cons a as ih =>
    unfold sortStr
    exact (perm_insertSorted a (sortStr as)).trans (ih.cons a)

theorem sorted_sortStr (l : List Str) :
    List.Pairwise (fun x y => strLe x y = true) (sortStr l) := by
  induction l with
  | nil => exact List.Pairwise.nil
  | cons a as ih =>
    unfold sortStr
    exact sorted_insertSorted a (sortStr as) ih

theorem sortStr_ne_nil {l : List Str} (h : l ≠ []) : sortStr l ≠ [] := by
  intro hc
  have := (perm_sortStr l).length_eq
  rw [hc] at this
  exact h (List.length_eq_zero.1 this.symm)

theorem mem_sortStr {b : Str} {l : List Str} : b ∈ sortStr l ↔ b ∈ l :=
  (perm_sortStr l).mem_iff
/-! ### Replace lemmas: Python `replace` removes every occurrence. -/

theorem startsWithPat_length_le :
    ∀ p s : Str, startsWithPat p s = true → p.length ≤ s.length := by
  intro p
  induction p with
  | nil => intro s _; exact Nat.zero_le _
  | cons x xs ih =>
    intro s h
    cases s with
    | nil => exact absurd h (by unfold startsWithPat; exact Bool.false_ne_true)
    | cons c cs =>
      unfold startsWithPat at h
      rcases Bool.and_eq_true_iff.1 h with ⟨_, h2⟩
      exact Nat.succ_le_succ (ih cs h2)

theorem startsWithPat_raw_nil : startsWithPat rawSuffix [] = false := rfl

theorem removeOccAux_succ (s : Str) (n : Nat) :
    removeOccAux s (n + 1) =
      if startsWithPat rawSuffix s then removeOccAux (s.drop rawSuffix.length) n
      else
        match s with
        | [] => []
        | c :: cs => c :: removeOccAux cs n := rfl

theorem removeOccAux_congr :
    ∀ (fuel1 fuel2 : Nat) (s : Str), s.length ≤ fuel1 → s.length ≤ fuel2 →
      removeOccAux s fuel1 = removeOccAux s fuel2 := by
  intro fuel1
  induction fuel1 with
  | zero =>
    intro fuel2 s h1 _
    have hs : s = [] := List.length_eq_zero.1 (Nat.le_zero.1 h1)
    subst hs
    cases fuel2 with
    | zero => rfl
    | succ f =>
      rw [removeOccAux_succ, startsWithPat_raw_nil]
      rfl
  | succ g ih =>
    intro fuel2 s h1 h2
    cases fuel2 with
    | zero =>
      have hs : s = [] := List.length_eq_zero.1 (Nat.le_zero.1 h2)
      subst hs
      rw [removeOccAux_succ, startsWithPat_raw_nil]
      rfl
    | succ f =>
      by_cases hsw : startsWithPat rawSuffix s = true
      · have hlen : rawSuffix.length ≤ s.length := startsWithPat_length_le _ s hsw
        have hpos : 1 ≤ rawSuffix.length := by decide
        rw [removeOccAux_succ s g, removeOccAux_succ s f, if_pos hsw, if_pos hsw]
        apply ih f
        · rw [List.length_drop]
          omega
        · rw [List.length_drop]
          omega
      · cases s with
        | nil =>
          rw [removeOccAux_succ, removeOccAux_succ, startsWithPat_raw_nil]
          rfl
        | cons c cs =>
          rw [removeOccAux_succ (c :: cs) g, removeOccAux_succ (c :: cs) f,
            if_neg hsw, if_neg hsw]
          have hg : cs.length ≤ g := by
            simp only [List.length_cons] at h1
            omega
          have hf : cs.length ≤ f := by
            simp only [List.length_cons] at h2
            omega
          exact congrArg (c :: ·) (ih f cs hg hf)

theorem removeOcc_nil : removeOcc [] = [] := rfl

theorem removeOcc_of_startsWith (s : Str)
    (h : startsWithPat rawSuffix s = true) :
    removeOcc s = removeOcc (s.drop rawSuffix.length) := by
  have hlen : rawSuffix.length ≤ s.length := startsWithPat_length_le _ s h
  have hpos : 1 ≤ rawSuffix.length := by decide
  cases hsl : s.length with
  | zero => exact absurd (hsl ▸ hlen) (by omega)
  | succ n =>
    unfold removeOcc
    rw [hsl, removeOccAux_succ s n, if_pos h]
    apply removeOccAux_congr
    · rw [List.length_drop]
      omega
    · exact Nat.le_refl _

theorem removeOcc_cons_of_not_startsWith (c : Char) (cs : Str)
    (h : ¬ startsWithPat rawSuffix (c :: cs) = true) :
    removeOcc (c :: cs) = c :: removeOcc cs := by
  unfold removeOcc
  rw [List.length_cons, removeOccAux_succ (c :: cs) cs.length, if_neg h]

theorem removeOcc_append_suffix (t : Str)
    (h : ∀ i < t.length,
      startsWithPat rawSuffix ((t ++ rawSuffix).drop i) = false) :
    removeOcc (t ++ rawSuffix) = t := by
  induction t with
  | nil =>
    rw [List.nil_append]
    rw [removeOcc_of_startsWith rawSuffix (by decide)]
    have hd : rawSuffix.drop rawSuffix.length = [] := by decide
    rw [hd, removeOcc_nil]
  | cons c cs ih =>
    have h0 : startsWithPat rawSuffix ((c :: cs) ++ rawSuffix) = false := by
      have := h 0 (by simp)
      simpa using this
    rw [List.cons_append]
    rw [removeOcc_cons_of_not_startsWith c (cs ++ rawSuffix)
      (by rw [← List.cons_append, h0]; exact Bool.false_ne_true)]
    rw [ih ?_]
    intro i hi
    have := h (i + 1) (by simp only [List.length_cons]; omega)
    simpa using this

/-! ### Tree-structure lemmas for a successful scan. -/

theorem setAssoc_append_of_absent {β : Type} (l : List (Str × β)) (k : Str)
    (v : β) (h : ∀ p ∈ l, p.1 ≠ k) : setAssoc l k v = l ++ [(k, v)] := by
  unfold setAssoc
  have hany : ¬ l.any (fun p => decide (p.1 = k)) = true := by
    intro hc
    rcases List.any_eq_true.1 hc with ⟨p, hp, he⟩
    exact h p hp (of_decide_eq_true he)
  rw [if_neg hany]

theorem scanStep_skip (tree : FileTree) (d : Str × List Str)
    (h : (d.2.filter endsWithRaw).isEmpty = true) :
    scanStep tree d = tree := by
  unfold scanStep
  rw [if_pos h]

theorem scanStep_insert (tree : FileTree) (d : Str × List Str)
    (h : ¬ (d.2.filter endsWithRaw).isEmpty = true) :
    scanStep tree d = setAssoc tree (basenameStr d.1)
      ⟨d.1, sortStr ((d.2.filter endsWithRaw).map removeOcc)⟩ := by
  unfold scanStep
  rw [if_neg h]

theorem qualDirs_cons_skip (d : Str × List Str) (rest : List (Str × List Str))
    (h : (d.2.filter endsWithRaw).isEmpty = true) :
    qualDirs (d :: rest) = qualDirs rest := by
  unfold qualDirs
  rw [List.filter_cons_of_neg (by rw [h]; decide)]

theorem qualDirs_cons_keep (d : Str × List Str) (rest : List (Str × List Str))
    (h : ¬ (d.2.filter endsWithRaw).isEmpty = true) :
    qualDirs (d :: rest) = d :: qualDirs rest := by
  unfold qualDirs
  rw [List.filter_cons_of_pos (by rw [Bool.eq_false_iff.2 h]; rfl)]

theorem buildTree_eq_of_nodup (walk : List (Str × List Str))
    (hN : (qualNames walk).Nodup) :
    buildTree walk = (qualDirs walk).map (fun d =>
      (basenameStr d.1,
        ⟨d.1, sortStr ((d.2.filter endsWithRaw).map removeOcc)⟩)) := by
  have key : ∀ (w : List (Str × List Str)) (acc : FileTree),
      (qualNames w).Nodup →
      (∀ b ∈ qualNames w, ∀ p ∈ acc, p.1 ≠ b) →
      List.foldl scanStep acc w = acc ++ (qualDirs w).map (fun d =>
        (basenameStr d.1,
          ⟨d.1, sortStr ((d.2.filter endsWithRaw).map removeOcc)⟩)) := by
    intro w
    induction w with
    | nil =>
      intro acc _ _
      simp [qualDirs]
    | cons d rest ih =>
      intro acc hn hdisj
      rw [List.foldl_cons]
      by_cases hre : (d.2.filter endsWithRaw).isEmpty = true
      · rw [scanStep_skip acc d hre]
        have hq : qualDirs (d :: rest) = qualDirs rest := qualDirs_cons_skip d rest hre
        have hqn : qualNames (d :: rest) = qualNames rest := by
          unfold qualNames
          rw [hq]
        rw [hq]
        exact ih acc (hqn ▸ hn) (fun b hb => hdisj b (hqn ▸ hb))
      · have hq : qualDirs (d :: rest) = d :: qualDirs rest :=
          qualDirs_cons_keep d rest hre
        have hqn : qualNames (d :: rest) =
            basenameStr d.1 :: qualNames rest := by
          unfold qualNames
          rw [hq, List.map_cons]
        rw [scanStep_insert acc d hre]
        rw [setAssoc_append_of_absent acc (basenameStr d.1) _
          (fun p hp => fun he =>
            hdisj (basenameStr d.1) (hqn ▸ List.mem_cons_self _ _) p hp he)]
        rw [hqn] at hn
        rw [List.nodup_cons] at hn
        obtain ⟨hbn, hn2⟩ := hn
        have hdisj2 : ∀ b ∈ qualNames rest,
            ∀ p ∈ acc ++ [(basenameStr d.1,
              (⟨d.1, sortStr ((d.2.filter endsWithRaw).map removeOcc)⟩ :
                FolderEntry))], p.1 ≠ b := by
          intro b hb p hp
          rcases List.mem_append.1 hp with hp | hp
          · exact hdisj b (hqn ▸ List.mem_cons_of_mem _ hb) p hp
          · rw [List.mem_singleton.1 hp]
            intro he
            have he2 : basenameStr d.1 = b := he
            exact hbn (he2.symm ▸ hb)
        rw [ih _ hn2 hdisj2]
        rw [hq, List.map_cons, List.append_assoc]
        rfl
  have h0 : ∀ b ∈ qualNames walk, ∀ p ∈ ([] : FileTree), p.1 ≠ b := by
    intro b _ p hp
    exact absurd hp (List.not_mem_nil p)
  unfold buildTree
  rw [key walk [] hN h0]
  rfl

theorem buildTree_keys (walk : List (Str × List Str))
    (hN : (qualNames walk).Nodup) :
    (buildTree walk).map Prod.fst = qualNames walk := by
  rw [buildTree_eq_of_nodup walk hN, List.map_map]
  rfl

theorem lookupAssoc_of_mem_nodup {β : Type} :
    ∀ (l : List (Str × β)), (l.map Prod.fst).Nodup →
      ∀ (k : Str) (v : β), (k, v) ∈ l → lookupAssoc l k = some v := by
  intro l
  induction l with
  | nil =>
    intro _ k v hm
    exact absurd hm (List.not_mem_nil _)
  | cons p rest ih =>
    intro hn k v hm
    rw [List.map_cons, List.nodup_cons] at hn
    obtain ⟨hp, hn2⟩ := hn
    rw [lookupAssoc_cons]
    rcases List.mem_cons.1 hm with hm | hm
    · rw [if_pos (congrArg Prod.fst hm.symm)]
      rw [← hm]
    · by_cases hk : p.1 = k
      · exact absurd (List.mem_map.2 ⟨(k, v), hm, hk.symm⟩) hp
      · rw [if_neg hk]
        exact ih hn2 k v hm

theorem scan_success_eq (s : AppState) (walk : List (Str × List Str))
    (h : ¬ (buildTree walk).isEmpty = true) :
    scan_png_directory s true walk =
      ({ s with file_tree := buildTree walk,
                current_folder := (buildTree walk).head?.map Prod.fst,
                current_img_idx := 0,
                scan_complete := true }, none) := by
  unfold scan_png_directory
  rw [if_pos rfl, if_neg h]

/-- C5 is refuted as stated: two distinct qualifying folders may share a
leaf name; `os.path.basename` keys collapse them in the dict, so this
two-folder root installs a tree with one key (holding only the later
folder's data), not two. -/
theorem c5_counterexample :
    (qualDirs exWalkClash).length = 2
    ∧ ((scan_png_directory exState true exWalkClash).1.file_tree).length = 1
    ∧ lookupAssoc (scan_png_directory exState true exWalkClash).1.file_tree
        (str "x") = some ⟨str "/r/b/x", [str "t"]⟩ := by decide

/-- C5 (amended): for a root whose qualifying folders have pairwise
distinct leaf names, a successful scan installs one key per qualifying
folder in walk order, each mapped to the lexicographically ascending
rearrangement of that folder's stripped base names, and resets navigation
to the first folder at index 0 with `scan_complete` set. -/
theorem c5_scan_success_tree (s : AppState) (walk : List (Str × List Str))
    (hN : (qualNames walk).Nodup) (hne : qualDirs walk ≠ []) :
    scan_png_directory s true walk =
      ({ s with file_tree := buildTree walk,
                current_folder := (buildTree walk).head?.map Prod.fst,
                current_img_idx := 0,
                scan_complete := true }, none)
    ∧ (buildTree walk).map Prod.fst = qualNames walk
    ∧ ∀ d ∈ qualDirs walk, ∃ e : FolderEntry,
        lookupAssoc (buildTree walk) (basenameStr d.1) = some e ∧
        e.path = d.1 ∧
        List.Pairwise (fun a b => strLe a b = true) e.base_names ∧
        e.base_names.Perm ((d.2.filter endsWithRaw).map removeOcc) := by
  have htree := buildTree_eq_of_nodup walk hN
  have hkeys := buildTree_keys walk hN
  have hnonempty : ¬ (buildTree walk).isEmpty = true := by
    rw [htree]
    cases hql : qualDirs walk with
    | nil => exact absurd hql hne
    | cons d rest =>
      rw [List.map_cons]
      exact Bool.false_ne_true
  refine ⟨scan_success_eq s walk hnonempty, hkeys, ?_⟩
  intro d hd
  refine ⟨⟨d.1, sortStr ((d.2.filter endsWithRaw).map removeOcc)⟩, ?_, rfl,
    sorted_sortStr _, perm_sortStr _⟩
  apply lookupAssoc_of_mem_nodup (buildTree walk) (hkeys ▸ hN)
  rw [htree]
  exact List.mem_map.2 ⟨d, hd, rfl⟩

/-- Witness for the amended C5 on a concrete two-folder walk. -/
theorem c5_scan_success_tree_witness :
    scan_png_directory exState true exWalk =
      ({ exState with
          file_tree := buildTree exWalk,
          current_folder := (buildTree exWalk).head?.map Prod.fst,
          current_img_idx := 0,
          scan_complete := true }, none)
    ∧ (buildTree exWalk).map Prod.fst = qualNames exWalk
    ∧ ∀ d ∈ qualDirs exWalk, ∃ e : FolderEntry,
        lookupAssoc (buildTree exWalk) (basenameStr d.1) = some e ∧
        e.path = d.1 ∧
        List.Pairwise (fun a b => strLe a b = true) e.base_names ∧
        e.base_names.Perm ((d.2.filter endsWithRaw).map removeOcc) :=
  c5_scan_success_tree exState exWalk (by decide) (by decide)

/-- C9 is refuted as stated: `replace('_raw.png', '')` removes every
occurrence of the pattern, not only the final suffix, so the file
`a_raw.png_raw.png` is registered under base name `a` although stripping
the suffix alone would give `a_raw.png`. -/
theorem c9_counterexample :
    endsWithRaw (str "a_raw.png_raw.png") = true
    ∧ buildTree exWalkOdd = [(str "D", ⟨str "/d/D", [str "a"]⟩)]
    ∧ removeOcc (str "a_raw.png_raw.png") = str "a"
    ∧ stripRawSuffixSpec (str "a_raw.png_raw.png") = str "a_raw.png"
    ∧ str "a" ≠ str "a_raw.png" := by decide

/-- C9 (amended): a base name is registered exactly for each collected
`_raw.png` file, and equals that filename with every (non-overlapping,
leftmost-first) occurrence of `_raw.png` removed; when the trailing suffix
is the only occurrence, this coincides with stripping the suffix and
altering nothing else. -/
theorem c9_base_name_stripping (fs : List Str) (b : Str) (t : Str)
    (ht : ∀ i < t.length,
      startsWithPat rawSuffix ((t ++ rawSuffix).drop i) = false) :
    (b ∈ sortStr ((fs.filter endsWithRaw).map removeOcc) ↔
      ∃ f ∈ fs, endsWithRaw f = true ∧ b = removeOcc f)
    ∧ removeOcc (t ++ rawSuffix) = t
    ∧ stripRawSuffixSpec (t ++ rawSuffix) = t := by
  refine ⟨?_, removeOcc_append_suffix t ht, ?_⟩
  · rw [mem_sortStr]
    constructor
    · intro h
      rcases List.mem_map.1 h with ⟨f, hf, he⟩
      rcases List.mem_filter.1 hf with ⟨h1, h2⟩
      exact ⟨f, h1, h2, he.symm⟩
    · rintro ⟨f, hf, hraw, hb⟩
      exact hb ▸ List.mem_map.2 ⟨f, List.mem_filter.2 ⟨hf, hraw⟩, rfl⟩
  · unfold stripRawSuffixSpec
    rw [List.length_append, Nat.add_sub_cancel]
    exact List.take_left t rawSuffix

/-- Witness for the amended C9 at a concrete file list and base name. -/
theorem c9_base_name_stripping_witness :
    (str "s1" ∈ sortStr
        (([str "s2_raw.png", str "s1_raw.png", str "s1_norm.png"].filter
          endsWithRaw).map removeOcc) ↔
      ∃ f ∈ [str "s2_raw.png", str "s1_raw.png", str "s1_norm.png"],
        endsWithRaw f = true ∧ str "s1" = removeOcc f)
    ∧ removeOcc (str "s1" ++ rawSuffix) = str "s1"
    ∧ stripRawSuffixSpec (str "s1" ++ rawSuffix) = str "s1" :=
  c9_base_name_stripping [str "s2_raw.png", str "s1_raw.png", str "s1_norm.png"]
    (str "s1") (str "s1") (by decide)

/-! ### Invariant lemmas: every installed tree is a well-formed dict. -/

theorem keys_setAssoc_present {β : Type} (l : List (Str × β)) (k : Str) (v : β)
    (h : l.any (fun p => decide (p.1 = k)) = true) :
    (setAssoc l k v).map Prod.fst = l.map Prod.fst := by
  unfold setAssoc
  rw [if_pos h, List.map_map]
  apply List.map_congr_left
  intro p _
  by_cases hp : p.1 = k
  · simp [hp]
  · simp [hp]

theorem keys_setAssoc_absent {β : Type} (l : List (Str × β)) (k : Str) (v : β)
    (h : ¬ l.any (fun p => decide (p.1 = k)) = true) :
    (setAssoc l k v).map Prod.fst = l.map Prod.fst ++ [k] := by
  unfold setAssoc
  rw [if_neg h, List.map_append]
  rfl

theorem nodup_keys_setAssoc {β : Type} (l : List (Str × β)) (k : Str) (v : β)
    (h : (l.map Prod.fst).Nodup) : ((setAssoc l k v).map Prod.fst).Nodup := by
  by_cases hany : l.any (fun p => decide (p.1 = k)) = true
  · rw [keys_setAssoc_present l k v hany]
    exact h
  · rw [keys_setAssoc_absent l k v hany]
    refine h.append (List.nodup_singleton k) ?_
    intro a ha hak
    rcases List.mem_map.1 ha with ⟨p, hp, he⟩
    rw [List.mem_singleton.1 hak] at he
    exact hany (List.any_eq_true.2 ⟨p, hp, decide_eq_true he⟩)

theorem mem_setAssoc {β : Type} (l : List (Str × β)) (k : Str) (v : β)
    (p : Str × β) (hp : p ∈ setAssoc l k v) : p ∈ l ∨ p = (k, v) := by
  unfold setAssoc at hp
  by_cases hany : l.any (fun q => decide (q.1 = k)) = true
  · rw [if_pos hany] at hp
    rcases List.mem_map.1 hp with ⟨q, hq, he⟩
    by_cases hqk : q.1 = k
    · rw [if_pos hqk] at he
      exact Or.inr he.symm
    · rw [if_neg hqk] at he
      exact Or.inl (he ▸ hq)
  · rw [if_neg hany] at hp
    rcases List.mem_append.1 hp with hp | hp
    · exact Or.inl hp
    · exact Or.inr (List.mem_singleton.1 hp)

theorem buildTree_keys_nodup (walk : List (Str × List Str)) :
    ((buildTree walk).map Prod.fst).Nodup := by
  have key : ∀ (w : List (Str × List Str)) (acc : FileTree),
      (acc.map Prod.fst).Nodup →
      ((List.foldl scanStep acc w).map Prod.fst).Nodup := by
    intro w
    induction w with
    | nil => intro acc h; exact h
    | cons d rest ih =>
      intro acc h
      rw [List.foldl_cons]
      by_cases hre : (d.2.filter endsWithRaw).isEmpty = true
      · rw [scanStep_skip acc d hre]
        exact ih acc h
      · rw [scanStep_insert acc d hre]
        exact ih _ (nodup_keys_setAssoc acc _ _ h)
  exact key walk [] List.Pairwise.nil

theorem filter_ne_nil_of_not_isEmpty {α : Type} {l : List α}
    (h : ¬ l.isEmpty = true) : l ≠ [] := by
  intro hc
  rw [hc] at h
  exact h rfl

theorem buildTree_entries_nonempty (walk : List (Str × List Str)) :
    ∀ p ∈ buildTree walk, p.2.base_names ≠ [] := by
  have key : ∀ (w : List (Str × List Str)) (acc : FileTree),
      (∀ p ∈ acc, p.2.base_names ≠ []) →
      ∀ p ∈ List.foldl scanStep acc w, p.2.base_names ≠ [] := by
    intro w
    induction w with
    | nil => intro acc h; exact h
    | cons d rest ih =>
      intro acc h
      rw [List.foldl_cons]
      by_cases hre : (d.2.filter endsWithRaw).isEmpty = true
      · rw [scanStep_skip acc d hre]
        exact ih acc h
      · rw [scanStep_insert acc d hre]
        apply ih
        intro p hp
        rcases mem_setAssoc acc _ _ p hp with hp | hp
        · exact h p hp
        · rw [hp]
          apply sortStr_ne_nil
          intro hc
          exact filter_ne_nil_of_not_isEmpty hre (List.map_eq_nil_iff.1 hc)
  intro p hp
  exact key walk [] (fun q hq => absurd hq (List.not_mem_nil q)) p hp

theorem treeWF_buildTree (walk : List (Str × List Str)) :
    TreeWF (buildTree walk) :=
  ⟨buildTree_keys_nodup walk, buildTree_entries_nonempty walk⟩

theorem lookupAssoc_exists_of_mem_keys {β : Type} :
    ∀ (l : List (Str × β)) (k : Str), k ∈ l.map Prod.fst →
      ∃ v, lookupAssoc l k = some v := by
  intro l
  induction l with
  | nil =>
    intro k hk
    exact absurd hk (List.not_mem_nil k)
  | cons p rest ih =>
    intro k hk
    rw [lookupAssoc_cons]
    by_cases hp : p.1 = k
    · exact ⟨p.2, by rw [if_pos hp]⟩
    · rw [List.map_cons, List.mem_cons] at hk
      rcases hk with hk | hk
      · exact absurd hk.symm hp
      · rw [if_neg hp]
        exact ih k hk

theorem mem_of_lookupAssoc {β : Type} :
    ∀ (l : List (Str × β)) (k : Str) (v : β),
      lookupAssoc l k = some v → (k, v) ∈ l := by
  intro l
  induction l with
  | nil =>
    intro k v h
    exact absurd h (by rw [lookupAssoc_nil]; exact Option.noConfusion)
  | cons p rest ih =>
    intro k v h
    rw [lookupAssoc_cons] at h
    by_cases hp : p.1 = k
    · rw [if_pos hp] at h
      have hv : p.2 = v := Option.some.inj h
      have : p = (k, v) := Prod.ext hp hv
      exact this ▸ List.mem_cons_self p rest
    · rw [if_neg hp] at h
      exact List.mem_cons_of_mem p (ih k v h)

theorem inBounds_iff (s : AppState) :
    inBounds s = true ↔ ∃ fe, navPos s = some fe ∧
      s.current_img_idx < fe.2.base_names.length := by
  unfold inBounds
  cases h : navPos s with
  | none =>
    constructor
    · intro hb
      exact absurd hb Bool.false_ne_true
    · rintro ⟨fe, hfe, -⟩
      exact Option.noConfusion hfe
  | some fe =>
    constructor
    · intro hb
      exact ⟨fe, rfl, of_decide_eq_true hb⟩
    · rintro ⟨fe2, hfe2, hlt⟩
      have he : fe = fe2 := Option.some.inj hfe2
      rw [he]
      exact decide_eq_true hlt

theorem navInv_scan (s : AppState) (re : Bool) (walk : List (Str × List Str))
    (h : NavInv s) : NavInv (scan_png_directory s re walk).1 := by
  cases re with
  | false => exact h
  | true =>
    by_cases hbt : (buildTree walk).isEmpty = true
    · have hres : scan_png_directory s true walk =
          (s, some ScanError.noValidSets) := by
        unfold scan_png_directory
        rw [if_pos rfl, if_pos hbt]
      rw [hres]
      exact h
    · rw [scan_success_eq s walk hbt]
      intro _
      refine ⟨treeWF_buildTree walk, ?_⟩
      rw [inBounds_iff]
      cases htr : buildTree walk with
      | nil =>
        rw [htr] at hbt
        exact absurd rfl hbt
      | cons p rest =>
        refine ⟨(p.1, p.2), ?_, ?_⟩
        · show ((p :: rest).head?.map Prod.fst).bind
              (fun f => (lookupAssoc (p :: rest) f).map (fun e => (f, e))) =
              some (p.1, p.2)
          rw [List.head?_cons, Option.map_some', Option.some_bind,
            lookupAssoc_cons, if_pos rfl, Option.map_some']
        · show 0 < p.2.base_names.length
          refine List.length_pos.2 ?_
          exact buildTree_entries_nonempty walk p
            (htr ▸ List.mem_cons_self p rest)

theorem navInv_save (fs : MasksFS) (s : AppState)
    (folder base tag notes : Str) (mask : Option Mask)
    (fs1 : MasksFS) (s1 : AppState) (sig : Bool)
    (hinv : NavInv s) (hf : s.current_folder = some folder)
    (heq : save_annotation_and_next fs s folder base tag notes mask =
      some (fs1, s1, sig)) : NavInv s1 := by
  cases hl : lookupAssoc s.file_tree folder with
  | none =>
    unfold save_annotation_and_next at heq
    rw [hl] at heq
    exact Option.noConfusion heq
  | some entry =>
    rw [save_annotation_and_next_eq fs s folder base tag notes mask entry hl]
      at heq
    by_cases h1 : s.current_img_idx + 1 < entry.base_names.length
    · rw [if_pos h1] at heq
      have hs1 : s1 = { s with
          annotations := upsertRow s.annotations
            ⟨folder, base, tag, (saveMaskStep fs folder base mask).2, notes⟩,
          current_img_idx := s.current_img_idx + 1 } :=
        (congrArg (fun x => x.2.1) (Option.some.inj heq)).symm
      rw [hs1]
      intro hsc
      obtain ⟨hTW, -⟩ := hinv hsc
      refine ⟨hTW, ?_⟩
      rw [inBounds_iff]
      refine ⟨(folder, entry), ?_, h1⟩
      have hnp : navPos ({ s with
          annotations := upsertRow s.annotations
            ⟨folder, base, tag, (saveMaskStep fs folder base mask).2, notes⟩,
          current_img_idx := s.current_img_idx + 1 }) =
          s.current_folder.bind
            (fun f => (lookupAssoc s.file_tree f).map (fun e => (f, e))) := rfl
      rw [hnp, hf, Option.some_bind, hl, Option.map_some']
    · rw [if_neg h1] at heq
      by_cases h2 : listIndexOf (s.file_tree.map Prod.fst) folder + 1 <
          (s.file_tree.map Prod.fst).length
      · rw [if_pos h2] at heq
        have hs1 : s1 = { s with
            annotations := upsertRow s.annotations
              ⟨folder, base, tag, (saveMaskStep fs folder base mask).2, notes⟩,
            current_folder := some ((s.file_tree.map Prod.fst).getD
              (listIndexOf (s.file_tree.map Prod.fst) folder + 1) folder),
            current_img_idx := 0 } :=
          (congrArg (fun x => x.2.1) (Option.some.inj heq)).symm
        rw [hs1]
        intro hsc
        obtain ⟨hTW, -⟩ := hinv hsc
        refine ⟨hTW, ?_⟩
        rw [inBounds_iff]
        have hk2 : (s.file_tree.map Prod.fst).getD
            (listIndexOf (s.file_tree.map Prod.fst) folder + 1) folder ∈
            s.file_tree.map Prod.fst := by
          rw [List.getD_eq_getElem _ _ h2]
          exact List.getElem_mem h2
        obtain ⟨v, hv⟩ :=
          lookupAssoc_exists_of_mem_keys s.file_tree _ hk2
        refine ⟨((s.file_tree.map Prod.fst).getD
          (listIndexOf (s.file_tree.map Prod.fst) folder + 1) folder, v),
          ?_, ?_⟩
        · have hnp : navPos ({ s with
              annotations := upsertRow s.annotations
                ⟨folder, base, tag, (saveMaskStep fs folder base mask).2,
                  notes⟩,
              current_folder := some ((s.file_tree.map Prod.fst).getD
                (listIndexOf (s.file_tree.map Prod.fst) folder + 1) folder),
              current_img_idx := 0 }) =
              (lookupAssoc s.file_tree ((s.file_tree.map Prod.fst).getD
                (listIndexOf (s.file_tree.map Prod.fst) folder + 1)
                folder)).map
                (fun e => ((s.file_tree.map Prod.fst).getD
                  (listIndexOf (s.file_tree.map Prod.fst) folder + 1)
                  folder, e)) := rfl
          rw [hnp, hv, Option.map_some']
        · show 0 < v.base_names.length
          exact List.length_pos.2
            (hTW.2 _ (mem_of_lookupAssoc s.file_tree _ v hv))
      · rw [if_neg h2] at heq
        have hs1 : s1 = { s with
            annotations := upsertRow s.annotations
              ⟨folder, base, tag, (saveMaskStep fs folder base mask).2,
                notes⟩ } :=
          (congrArg (fun x => x.2.1) (Option.some.inj heq)).symm
        rw [hs1]
        intro hsc
        obtain ⟨hTW, hib⟩ := hinv hsc
        exact ⟨hTW, hib⟩

theorem navInv_previous (s : AppState) (h : NavInv s) :
    NavInv (previousStep s) := by
  unfold previousStep
  by_cases h0 : s.current_img_idx = 0
  · rw [if_pos h0]
    exact h
  · rw [if_neg h0]
    intro hsc
    obtain ⟨hTW, hib⟩ := h hsc
    refine ⟨hTW, ?_⟩
    rw [inBounds_iff] at hib ⊢
    obtain ⟨fe, hfe, hlt⟩ := hib
    exact ⟨fe, hfe, lt_of_le_of_lt (Nat.sub_le _ 1) hlt⟩

theorem navInv_folderChange (s : AppState) (selected : Str) (h : NavInv s)
    (hsel : selected ∈ s.file_tree.map Prod.fst) :
    NavInv (folderChange s selected) := by
  unfold folderChange
  by_cases hc : s.current_folder = some selected
  · rw [if_pos hc]
    exact h
  · rw [if_neg hc]
    intro hsc
    obtain ⟨hTW, -⟩ := h hsc
    refine ⟨hTW, ?_⟩
    rw [inBounds_iff]
    obtain ⟨v, hv⟩ := lookupAssoc_exists_of_mem_keys s.file_tree selected hsel
    refine ⟨(selected, v), ?_, ?_⟩
    · have hnp : navPos ({ s with
          current_folder := some selected,
          current_img_idx := 0 }) =
          (lookupAssoc s.file_tree selected).map (fun e => (selected, e)) :=
        rfl
      rw [hnp, hv, Option.map_some']
    · show 0 < v.base_names.length
      exact List.length_pos.2
        (hTW.2 _ (mem_of_lookupAssoc s.file_tree selected v hv))

/-- C7: the session invariant — once `scan_complete` holds, the tree is a
well-formed dict, `current_folder` resolves to a tree entry and
`current_img_idx` is in bounds of its `base_names` — is established or
preserved by every operation: any scan (successful or failed), Save & Next
from the current folder, Previous, and manual folder change to an offered
key; rendering `base_names[current_img_idx]` therefore never indexes out of
bounds.  (`create_export_zip` reads only the table and the masks directory
and touches no session state, so it cannot disturb the invariant.) -/
theorem c7_navigation_invariant :
    (∀ (s : AppState) (re : Bool) (walk : List (Str × List Str)),
      NavInv s → NavInv (scan_png_directory s re walk).1)
    ∧ (∀ (fs : MasksFS) (s : AppState) (folder base tag notes : Str)
        (mask : Option Mask) (fs1 : MasksFS) (s1 : AppState) (sig : Bool),
      NavInv s → s.current_folder = some folder →
      save_annotation_and_next fs s folder base tag notes mask =
        some (fs1, s1, sig) → NavInv s1)
    ∧ (∀ s : AppState, NavInv s → NavInv (previousStep s))
    ∧ (∀ (s : AppState) (selected : Str), NavInv s →
      selected ∈ s.file_tree.map Prod.fst → NavInv (folderChange s selected))
    ∧ (∀ s : AppState, NavInv s → s.scan_complete = true →
      ∃ fe, navPos s = some fe ∧
        s.current_img_idx < fe.2.base_names.length) :=
  ⟨navInv_scan,
   fun fs s folder base tag notes mask fs1 s1 sig hinv hf heq =>
     navInv_save fs s folder base tag notes mask fs1 s1 sig hinv hf heq,
   navInv_previous,
   navInv_folderChange,
   fun s h hsc => (inBounds_iff s).1 (h hsc).2⟩

/-- Witness for C7: concrete states through a scan, a Save & Next, a
Previous, and a manual folder change all keep the invariant, and the
in-bounds consequence holds at a concrete browsing state. -/
theorem c7_navigation_invariant_witness :
    NavInv (scan_png_directory exState true exWalk).1
    ∧ NavInv (⟨true, exTree, some (str "A"), 1,
        [⟨str "A", str "s1", str "Keep", str "No", str "ok"⟩]⟩ : AppState)
    ∧ NavInv (previousStep exStateEnd)
    ∧ NavInv (folderChange exState (str "B"))
    ∧ ∃ fe, navPos exState = some fe ∧
        exState.current_img_idx < fe.2.base_names.length :=
  ⟨c7_navigation_invariant.1 exState true exWalk (by decide),
   c7_navigation_invariant.2.1 exFS exState (str "A") (str "s1") (str "Keep")
     (str "ok") none exFS
     (⟨true, exTree, some (str "A"), 1,
       [⟨str "A", str "s1", str "Keep", str "No", str "ok"⟩]⟩ : AppState)
     false (by decide) (by decide) (by decide),
   c7_navigation_invariant.2.2.1 exStateEnd (by decide),
   c7_navigation_invariant.2.2.2.1 exState (str "B") (by decide) (by decide),
   c7_navigation_invariant.2.2.2.2 exState (by decide) (by decide)⟩
